import Mathlib

/-!
A shallow embedding of the core log engine implemented in
`src/src-tauri/src/lib.rs`, together with proofs about its operators.

Modelling conventions.  External library calls are oracle parameters:
a compiled `regex::Regex` is a `CRegex` value (its matching and capture
behaviour on strings), regex compilation is a function
`String → Option CRegex` where `none` models `Regex::new` returning `Err`,
per-line byte decoding (`bytes_to_string_with_encoding`, lib.rs:47-63) is a
function `FileEncoding → List Nat → String`, Rust `f64` parsing and `chrono`
date parsing are functions handed to the timestamp parser.  `usize` values
stay in `Nat` (they index a memory-mapped file, far from overflow), and `f64`
timestamp arithmetic is modelled over `ℚ`.  Rust string case maps and `trim`
are modelled by the character-list maps `strLower` / `strUpper` / `strTrim`
below (ASCII case folding; all concrete inputs used here are ASCII, where
Rust's Unicode versions agree with them).
-/

namespace Logview

/-- Mirrors `enum FileEncoding` (lib.rs:40-45). -/
inductive FileEncoding where
  | utf8
  | utf16le
  | utf16be
deriving DecidableEq

/-- Model of a compiled `regex::Regex`: `is_match` is `Regex::is_match`;
`captures s` is `Regex::captures(s)` — `none` when the line does not match,
otherwise the list of capture groups (group 0, the whole match, first; a
group that did not participate is `none`).  `cap.len()` is the list length
and `cap.get(i)` is entry `i` (or `none` past the end). -/
structure CRegex where
  is_match : String → Bool
  captures : String → Option (List (Option String))

/-- Mirrors `struct LogSession` (lib.rs:18-24). -/
structure LogSession where
  id : Nat
  start_line : Nat
  end_line : Nat
  boot_marker : String
deriving DecidableEq

/-- Mirrors `struct LogLine` (lib.rs:26-31). -/
structure LogLine where
  line_number : Nat
  content : String
  level : Option String
deriving DecidableEq

/-- The installed `LogIndex` (lib.rs:66-71) as the query operators consume
it: entry `i` of `lines` is the decoded text of the byte slice
`bytes[offsets[i] .. offsets[i+1])` (terminator included, `bytes.len()` as
upper end for the last line), and `levels` is the precomputed level list.
The operators only ever read those two projections of the index. -/
structure LogIndex where
  lines : List String
  levels : List (Option String)
deriving DecidableEq

/-- Mirrors `struct ParsedLog` (lib.rs:33-38). -/
structure ParsedLog where
  sessions : List LogSession
  line_count : Nat
  levels : List (Option String)
deriving DecidableEq

/-- Mirrors `struct WorkflowSegment` (lib.rs:888-896), timestamps over `ℚ`. -/
structure WorkflowSegment where
  start_line : Nat
  end_line : Nat
  start_time : ℚ
  end_time : ℚ
  duration_ms : ℚ
  id : Option String
deriving DecidableEq

/-- Rust `str::contains(pat)` at the character level: `pat` occurs as a
contiguous subsequence. -/
def containsSeq (pat : List Char) : List Char → Bool
  | [] => pat.isEmpty
  | c :: rest => pat.isPrefixOf (c :: rest) || containsSeq pat rest

/-- `s.contains(pat)` for Rust strings. -/
def strContains (s pat : String) : Bool := containsSeq pat.data s.data

/-- Rust `str::to_lowercase` on the character list (ASCII case map; all
concrete strings below are ASCII, where the two agree). -/
def strLower (s : String) : String := String.mk (s.data.map Char.toLower)

/-- Rust `str::to_uppercase`, same convention as `strLower`. -/
def strUpper (s : String) : String := String.mk (s.data.map Char.toUpper)

/-- Rust `str::trim`: whitespace stripped from both ends. -/
def strTrim (s : String) : String :=
  String.mk (((s.data.dropWhile Char.isWhitespace).reverse.dropWhile
    Char.isWhitespace).reverse)

/-- The default level pattern of `parse_log_file` (lib.rs:169). -/
def defaultLevelPattern : String := "(?i)\\[(DEBUG|INFO|WARN|ERROR|FATAL|NORM|TRACE|SUCCESS)\\]"

/-- The default boot pattern of `parse_log_file` (lib.rs:175). -/
def defaultBootPattern : String := "(?i)(system|boot|start)(ed|ing|up)"

/-- lib.rs:166-170: a non-empty user pattern is compiled with `.ok()` (a
malformed one therefore yields `none`); only the empty string selects the
default pattern. -/
def mkLevelRe (compile : String → Option CRegex) (level_regex : String) : Option CRegex :=
  if level_regex ≠ "" then compile level_regex else compile defaultLevelPattern

/-- lib.rs:172-176 and 197-201 (also 263-267): same shape for the boot
pattern. -/
def mkBootRe (compile : String → Option CRegex) (boot_regex : String) : Option CRegex :=
  if boot_regex ≠ "" then compile boot_regex else compile defaultBootPattern

/-- Per-line level extraction of `parse_log_file` (lib.rs:179-194): capture
group 1 when the pattern has groups, else the whole match, uppercased. -/
def computeLevels (lre : Option CRegex) (lineStrs : List String) : List (Option String) :=
  lineStrs.map fun l =>
    lre.bind fun re =>
      (re.captures l).bind fun cap =>
        if 1 < cap.length then ((cap.getD 1 none).map strUpper)
        else ((cap.getD 0 none).map strUpper)

/-- Session count of `parse_log_file` (lib.rs:203-213): matching lines + 1,
or just 1 when no boot regex is available. -/
def sessionsCount (bre : Option CRegex) (lineStrs : List String) : Nat :=
  match bre with
  | some re => lineStrs.countP (fun l => re.is_match l) + 1
  | none => 1

/-- BOM sniffing of `parse_log_file` (lib.rs:100-108): returns the detected
encoding and the byte offset after the BOM. -/
def detectEncoding (bytes : List Nat) : FileEncoding × Nat :=
  if bytes.take 2 = [0xff, 0xfe] then (FileEncoding.utf16le, 2)
  else if bytes.take 2 = [0xfe, 0xff] then (FileEncoding.utf16be, 2)
  else if bytes.take 3 = [0xef, 0xbb, 0xbf] then (FileEncoding.utf8, 3)
  else (FileEncoding.utf8, 0)

/-- Newline scanning of `parse_log_file` (lib.rs:113-137): positions right
after each newline, per encoding.  The parallel scan plus
`sort_unstable` is modelled by filtering the ascending index range, which
yields the same sorted list. -/
def newlineOffsets (bytes : List Nat) : List Nat :=
  let ep := detectEncoding bytes
  match ep.1 with
  | FileEncoding.utf16le =>
      ((List.range' ep.2 (bytes.length - ep.2)).filter
        (fun i => decide (bytes.getD i 0 = 0x0A) && decide ((i - ep.2) % 2 = 0))).map (· + 2)
  | FileEncoding.utf16be =>
      ((List.range' ep.2 (bytes.length - ep.2)).filter
        (fun i => decide (bytes.getD i 0 = 0x0A) && decide ((i - ep.2) % 2 = 1))).map (· + 1)
  | FileEncoding.utf8 =>
      ((List.range' ep.2 (bytes.length - ep.2)).filter
        (fun i => decide (bytes.getD i 0 = 0x0A))).map (· + 1)

/-- Offset construction of `parse_log_file` (lib.rs:111-142): the start
offset, then the newline successors, dropping a final entry equal to
`bytes.len()`. -/
def computeOffsets (bytes : List Nat) : List Nat :=
  let offsets := (detectEncoding bytes).2 :: newlineOffsets bytes
  if offsets.getLast? = some bytes.length then offsets.dropLast else offsets

/-- Rust slicing `&bytes[s..e]`: panics unless `s ≤ e ∧ e ≤ len`; the panic
is modelled as `none`. -/
def checkedSlice (bytes : List Nat) (s e : Nat) : Option (List Nat) :=
  if s ≤ e ∧ e ≤ bytes.length then some ((bytes.drop s).take (e - s)) else none

/-- Sequence a list of fallible computations; `none` as soon as one fails. -/
def optionMapAll {α β : Type} (f : α → Option β) : List α → Option (List β)
  | [] => some []
  | a :: l =>
    match f a, optionMapAll f l with
    | some b, some bs => some (b :: bs)
    | _, _ => none

/-- The per-line byte slices taken by the level and session scans of
`parse_log_file` (lib.rs:180-182, 205-207): `bytes[offsets[i] .. end]` with
`end = offsets[i+1]` or `bytes.len()` for the last line.  A failing slice
models the Rust panic. -/
def lineSlices (bytes : List Nat) (offsets : List Nat) : Option (List (List Nat)) :=
  optionMapAll
    (fun i => checkedSlice bytes (offsets.getD i 0)
      (if i + 1 < offsets.length then offsets.getD (i + 1) 0 else bytes.length))
    (List.range offsets.length)

/-- The `FileInfo` and installed index produced by a successful `open`. -/
structure OpenResult where
  offsets : List Nat
  levels : List (Option String)
  encoding : FileEncoding
  lines : Nat
  sessions : Nat
  size : Nat
deriving DecidableEq

/-- `parse_log_file` (lib.rs:88-239) on the mapped bytes: BOM detection,
offset construction, level precomputation and session counting.  `none`
models a panic while slicing lines (the function then neither returns
`Ok` nor installs an index). -/
def parse_log_file (compile : String → Option CRegex)
    (decode : FileEncoding → List Nat → String)
    (boot_regex level_regex : String) (bytes : List Nat) : Option OpenResult :=
  let ep := detectEncoding bytes
  let offsets := computeOffsets bytes
  match lineSlices bytes offsets with
  | none => none
  | some slices =>
    let lineStrs := slices.map (decode ep.1)
    some { offsets := offsets
           levels := computeLevels (mkLevelRe compile level_regex) lineStrs
           encoding := ep.1
           lines := offsets.length
           sessions := sessionsCount (mkBootRe compile boot_regex) lineStrs
           size := bytes.length }

/-! ## Timestamp parsing (lib.rs:806-833) -/

/-- The date formats tried by `parse_timestamp_to_ms` (lib.rs:814-822),
in order. -/
def timestampFormats : List String :=
  ["%Y-%m-%d %H:%M:%S%.3f", "%Y-%m-%d %H:%M:%S", "%Y-%m-%d_%H:%M:%S",
   "%Y-%m-%dT%H:%M:%S%.3f", "%Y/%m/%d %H:%M:%S%.3f", "%H:%M:%S%.3f", "%H:%M:%S"]

/-- `parse_timestamp_to_ms` (lib.rs:806-833).  `parseF64 s` models
`s.parse::<f64>()` (the parsed value over `ℚ`); `parseDate fmt s` models
`chrono::NaiveDateTime::parse_from_str(s, fmt)` followed by
`.timestamp_millis()`.  A float below `10^10` is taken as seconds and scaled
to milliseconds; otherwise it is already milliseconds; a date string uses
the first format that parses, and total failure yields `0`. -/
def parse_timestamp_to_ms (parseF64 : String → Option ℚ)
    (parseDate : String → String → Option ℤ) (ts_str : String) : ℚ :=
  match parseF64 ts_str with
  | some val => if val < 10000000000 then val * 1000 else val
  | none =>
    match timestampFormats.findSome? (fun fmt => parseDate fmt ts_str) with
    | some ms => (ms : ℚ)
    | none => 0

/-! ## Session segmentation (lib.rs:241-342 and 380-459) -/

/-- The shared emission loop of `parse_log_content` (lib.rs:277-330) and
`parse_log_with_custom_splitters` (lib.rs:418-449).  `step i l st` is the
body deciding a split on line index `i` with text `l` and loop state `st`
(the time-gap state for the boot variant, nothing for the splitter
variant); it returns the split flag, the marker to record on a split, and
the next state.  A split at line index `i > 0` closes the running session
at 1-based line `i`; the tail session is closed at the final index with
marker `"End of File"` (`"Full Log"` for an empty file). -/
def segLoop {σ : Type} (step : Nat → String → σ → Bool × String × σ) :
    List String → Nat → Nat → Nat → σ → List LogSession → List LogSession
  | [], i, cs, sid, _st, acc =>
    acc ++ [⟨sid, cs, i, if 0 < i then "End of File" else "Full Log"⟩]
  | l :: rest, i, cs, sid, st, acc =>
    let r := step i l st
    if r.1 ∧ 0 < i then
      segLoop step rest (i + 1) (i + 1) (sid + 1) r.2.2 (acc ++ [⟨sid, cs, i, r.2.1⟩])
    else
      segLoop step rest (i + 1) cs sid r.2.2 acc

/-- The split decision of one `parse_log_content` iteration
(lib.rs:283-321): a boot-regex match on a non-first line splits with the
trimmed line as marker; otherwise, with a positive gap threshold, a parsed
timestamp farther than the threshold from the previous one splits with the
formatted gap marker (`gapFmt` models the `format!` of lib.rs:303) and the
parsed timestamp always replaces the remembered one.  The returned marker
already applies the "empty marker falls back to the trimmed line" rule of
lib.rs:317. -/
def plcStep (bootRe tsRe : Option CRegex) (thr : ℚ) (tryTs : String → Option ℚ)
    (gapFmt : ℚ → String) (i : Nat) (l : String) (lastTime : Option ℚ) :
    Bool × String × Option ℚ :=
  let bootSplit : Bool :=
    match bootRe with
    | some re => re.is_match l && decide (0 < i)
    | none => false
  let res : Bool × String × Option ℚ :=
    if bootSplit = false ∧ 0 < thr then
      match tsRe with
      | some re =>
        match re.captures l with
        | some caps =>
          let ts_str :=
            match caps.getD 1 none with
            | some s => s
            | none => (caps.getD 0 none).getD ""
          match tryTs ts_str with
          | some ct =>
            match lastTime with
            | some last =>
              if thr < |ct - last| then (true, gapFmt (ct - last), some ct)
              else (bootSplit, if bootSplit then strTrim l else "", some ct)
            | none => (bootSplit, if bootSplit then strTrim l else "", some ct)
          | none => (bootSplit, if bootSplit then strTrim l else "", lastTime)
        | none => (bootSplit, if bootSplit then strTrim l else "", lastTime)
      | none => (bootSplit, if bootSplit then strTrim l else "", lastTime)
    else (bootSplit, if bootSplit then strTrim l else "", lastTime)
  (res.1, if res.2.1 = "" then strTrim l else res.2.1, res.2.2)

/-- `parse_log_content` (lib.rs:241-342): boot-regex plus time-gap
segmentation over the installed index.  `tryTs` models
`try_parse_timestamp` (lib.rs:345-378). -/
def parse_log_content (compile : String → Option CRegex)
    (boot_regex timestamp_regex : String) (time_gap_threshold : ℚ)
    (tryTs : String → Option ℚ) (gapFmt : ℚ → String) (idx : LogIndex) : ParsedLog :=
  let bootRe := mkBootRe compile boot_regex
  let tsRe := if timestamp_regex ≠ "" then compile timestamp_regex else none
  { sessions :=
      segLoop (plcStep bootRe tsRe time_gap_threshold tryTs gapFmt) idx.lines 0 1 0 none []
    line_count := idx.lines.length
    levels := idx.levels }

/-- `parse_log_with_custom_splitters` (lib.rs:380-459): empty splitter
strings are skipped and failing compilations dropped (lib.rs:408-415); a
line matching any compiled splitter splits, with the trimmed line as
marker. -/
def parse_log_with_custom_splitters (compile : String → Option CRegex)
    (splitter_regexes : List String) (idx : LogIndex) : ParsedLog :=
  let compiled_splitters := splitter_regexes.filterMap fun r =>
    if r = "" then none else compile r
  { sessions :=
      segLoop (fun _i l _u => (compiled_splitters.any fun re => re.is_match l, strTrim l, ()))
        idx.lines 0 1 0 () []
    line_count := idx.lines.length
    levels := idx.levels }

/-! ## Range fetch (lib.rs:461-496) -/

/-- `get_log_range` (lib.rs:461-496): clamp the 1-based bounds to the line
count, return the rows `start_idx..end_idx` (0-based, right-open) with
1-based numbers, decoded content and precomputed level. -/
def get_log_range (start_line end_line : Nat) (idx : LogIndex) : List LogLine :=
  let line_count := idx.lines.length
  let start_idx := min (max start_line 1 - 1) line_count
  let end_idx := min end_line line_count
  if end_idx ≤ start_idx then []
  else
    (List.range' start_idx (end_idx - start_idx)).map fun i =>
      ⟨i + 1, idx.lines.getD i "", idx.levels.getD i none⟩

/-! ## Search (lib.rs:664-791) -/

/-- The characters trimmed from a query by `search_log` (lib.rs:677). -/
def isNlCr (c : Char) : Bool := c = '\r' || c = '\n'

/-- Rust `query.trim_matches(|c| c == '\r' || c == '\n')`: strip those
characters from both ends. -/
def trimNewlines (s : String) : String :=
  String.mk (((s.data.dropWhile isNlCr).reverse.dropWhile isNlCr).reverse)

/-- The per-line terminator stripping of `search_log` (lib.rs:711-731):
drop trailing `\n` / `\r`.  At the byte level the code walks code units per
encoding; on the decoded text both walks remove exactly the trailing
newline and carriage-return characters. -/
def stripTrailing (s : String) : String :=
  String.mk ((s.data.reverse.dropWhile isNlCr).reverse)

/-- One contiguous scan block of `search_log` (lib.rs:707-744, 748-787):
line indices `a ≤ i < b`, terminator-stripped content, match filter. -/
def searchBlock (f : String → Bool) (idx : LogIndex) (a b : Nat) : List LogLine :=
  (List.range' a (b - a)).filterMap fun i =>
    let line_str := stripTrailing (idx.lines.getD i "")
    if f line_str then some ⟨i + 1, line_str, idx.levels.getD i none⟩ else none

/-- The `search_fn` closure construction of `search_log` (lib.rs:683-692):
a regex query is compiled case-insensitively (`compileCI` models
`RegexBuilder::case_insensitive(true)`; failure is the error return of
lib.rs:687); a plain query becomes a case-insensitive substring test. -/
def searchFn (trimmed_query : String) (is_regex : Bool)
    (compileCI : String → Option CRegex) : Except String (String → Bool) :=
  if is_regex then
    match compileCI trimmed_query with
    | some re => Except.ok re.is_match
    | none => Except.error "invalid regex"
  else
    Except.ok (fun s => strContains (strLower s) (strLower trimmed_query))

/-- One clamped per-range scan of `search_log` (lib.rs:699-744): the
`(start, end)` pair is clamped to the line count exactly as in
`get_log_range`, an inverted pair yields the empty block. -/
def rangeBlock (f : String → Bool) (idx : LogIndex) (r : Nat × Nat) : List LogLine :=
  if min r.2 idx.lines.length ≤ min (max r.1 1 - 1) idx.lines.length then []
  else searchBlock f idx (min (max r.1 1 - 1) idx.lines.length)
    (min r.2 idx.lines.length)

/-- `search_log` (lib.rs:664-791) on an installed index.  The query is
newline-trimmed; an empty trimmed query short-circuits to `ok []`.  With
`line_ranges` the clamped blocks are scanned and concatenated in the order
the ranges were given; otherwise the whole index is scanned. -/
def search_log (query : String) (is_regex : Bool)
    (compileCI : String → Option CRegex)
    (line_ranges : Option (List (Nat × Nat))) (idx : LogIndex) :
    Except String (List LogLine) :=
  let trimmed_query := trimNewlines query
  if trimmed_query = "" then Except.ok []
  else
    match searchFn trimmed_query is_regex compileCI with
    | Except.error e => Except.error e
    | Except.ok f =>
      match line_ranges with
      | some ranges =>
        if ranges = [] then Except.ok []
        else Except.ok (ranges.flatMap (rangeBlock f idx))
      | none => Except.ok (searchBlock f idx 0 idx.lines.length)

/-! ## Filtered indices (lib.rs:1086-1216) -/

/-- Mirrors `enum RefinementMode` (lib.rs:1111-1116). -/
inductive RefinementMode where
  | inc : String → RefinementMode
  | exc : String → RefinementMode
  | rex : CRegex → RefinementMode
  | exact : String → RefinementMode

/-- The fallback `regex::Regex::new("").unwrap()` of lib.rs:1129.  The empty
pattern matches every string (and captures the empty whole match
everywhere), which this value models. -/
def modelEmptyRe : CRegex := ⟨fun _ => true, fun _ => some [some ""]⟩

/-- Refinement parsing (lib.rs:1120-1139).  `startsWith '!'` etc. are
expressed as a test on the first character, and the byte slice `&s[1..]` as
the character tail (the two agree because the tested first character is
ASCII).  A `/`-pattern that fails to compile is silently replaced by the
empty regex (lib.rs:1126-1129). -/
def parseRefinement (compileCI : String → Option CRegex) (s : String) : RefinementMode :=
  let t := strTrim s
  if t.data.head? = some '!' then RefinementMode.exc (strLower (String.mk t.data.tail))
  else if t.data.head? = some '/' then
    RefinementMode.rex ((compileCI (String.mk t.data.tail)).getD modelEmptyRe)
  else if t.data.head? = some '=' then RefinementMode.exact (String.mk t.data.tail)
  else if t.data.head? = some '?' then RefinementMode.inc (strLower (String.mk t.data.tail))
  else RefinementMode.inc (strLower t)

/-- One refinement test against a line (lib.rs:1195-1210); `inc`/`exc` on
the lowercased line, `rex`/`exact` on the original. -/
def refCheck (m : RefinementMode) (line : String) : Bool :=
  match m with
  | RefinementMode.inc k => strContains (strLower line) k
  | RefinementMode.exc k => !strContains (strLower line) k
  | RefinementMode.rex re => re.is_match line
  | RefinementMode.exact k => strContains line k

/-- `get_filtered_indices` (lib.rs:1086-1216): seed lines by range, level
and keyword (lib.rs:1143-1164), optional context expansion around seeds
(lib.rs:1166-1179), then the conjunction of all parsed refinements
(lib.rs:1182-1213), returning 0-based indices in ascending order. -/
def get_filtered_indices (compileCI : String → Option CRegex)
    (log_levels : List String) (line_ranges : Option (List (Nat × Nat)))
    (highlights : List String) (context_lines : Nat) (refinements : List String)
    (idx : LogIndex) : List Nat :=
  let line_count := idx.lines.length
  let levels_set := log_levels.map strUpper
  let keywords := (highlights.map (fun s => strLower (strTrim s))).filter (fun s => ¬ s = "")
  let parsed_refinements :=
    (refinements.filter (fun s => ¬ strTrim s = "")).map (parseRefinement compileCI)
  let is_seed : Nat → Bool := fun i =>
    (match line_ranges with
     | some ranges => ranges.any (fun r => decide (r.1 ≤ i + 1) && decide (i + 1 ≤ r.2))
     | none => true) &&
    (levels_set.isEmpty ||
      levels_set.contains (((idx.levels.getD i none).map strUpper).getD "INFO")) &&
    (keywords.isEmpty ||
      keywords.any (fun k => strContains (strLower (idx.lines.getD i "")) k))
  let in_trace : Nat → Bool := fun j =>
    if ¬ keywords = [] ∧ 0 < context_lines then
      (List.range line_count).any fun i =>
        is_seed i && decide (i ≤ j + context_lines) && decide (j ≤ i + context_lines)
    else is_seed j
  (List.range line_count).filter fun i =>
    in_trace i && parsed_refinements.all (fun m => refCheck m (idx.lines.getD i ""))

/-! ## Workflow duration (lib.rs:898-1015) -/

/-- Mirrors `struct LineMeta` (lib.rs:925-932). -/
structure LineMeta where
  line_num : Nat
  ts : ℚ
  id : Option String
  is_start : Bool
  is_end : Bool
deriving DecidableEq

/-- `HashMap::insert` over an association list: the new binding shadows and
replaces any previous one for the key. -/
def hmInsert (m : List (String × Nat × ℚ)) (k : String) (v : Nat × ℚ) :
    List (String × Nat × ℚ) :=
  (k, v) :: m.filter (fun p => ¬ p.1 = k)

/-- `HashMap::remove`'s returned value: the binding for `k`, if any. -/
def hmGet (m : List (String × Nat × ℚ)) (k : String) : Option (Nat × ℚ) :=
  (m.find? (fun p => p.1 = k)).map (fun p => p.2)

/-- `HashMap::remove`'s effect on the map. -/
def hmRemove (m : List (String × Nat × ℚ)) (k : String) : List (String × Nat × ℚ) :=
  m.filter (fun p => ¬ p.1 = k)

/-- The parallel extraction pass of `analyze_workflow_duration`
(lib.rs:934-961): per line, the timestamp from capture group 1 of `ts_re`
(0 when absent), the workflow id from `id_re`, and the start/end match
flags. -/
def mkMetas (start_re end_re ts_re : CRegex) (id_re : Option CRegex)
    (parseF64 : String → Option ℚ) (parseDate : String → String → Option ℤ)
    (idx : LogIndex) : List LineMeta :=
  (List.range idx.lines.length).map fun i =>
    let line := idx.lines.getD i ""
    { line_num := i + 1
      ts := match (ts_re.captures line).bind (fun c => c.getD 1 none) with
            | some m => parse_timestamp_to_ms parseF64 parseDate m
            | none => 0
      id := (id_re.bind fun re => re.captures line).bind fun c =>
            if 1 < c.length then c.getD 1 none else c.getD 0 none
      is_start := start_re.is_match line
      is_end := end_re.is_match line }

/-- The start-line handling of `analyze_workflow_duration` (lib.rs:975-981)
for the id map: a start with an id records `(line, last_valid_ts)` under
that id. -/
def wfUpdateWi (m : LineMeta) (wi : List (String × Nat × ℚ)) (lvt2 : ℚ) :
    List (String × Nat × ℚ) :=
  if m.is_start then
    match m.id with
    | some fid => hmInsert wi fid (m.line_num, lvt2)
    | none => wi
  else wi

/-- The start-line handling for the no-id LIFO stack (lib.rs:979). -/
def wfUpdateNi (m : LineMeta) (ni : List (Nat × ℚ)) (lvt2 : ℚ) :
    List (Nat × ℚ) :=
  if m.is_start then
    match m.id with
    | some _ => ni
    | none => (m.line_num, lvt2) :: ni
  else ni

/-- The sequential matching pass of `analyze_workflow_duration`
(lib.rs:963-1012): `last_valid_ts` advances on positive timestamps; a start
line records `(line, last_valid_ts)` under its id (or on the LIFO stack);
an end line removes the pending start and emits a segment when both
timestamps are positive. -/
def workflowGo : List LineMeta → List (String × Nat × ℚ) → List (Nat × ℚ) → ℚ →
    List WorkflowSegment → List WorkflowSegment
  | [], _wi, _ni, _lvt, segs => segs
  | m :: rest, wi, ni, lvt, segs =>
    let lvt2 := if 0 < m.ts then m.ts else lvt
    let wi1 := wfUpdateWi m wi lvt2
    let ni1 := wfUpdateNi m ni lvt2
    if m.is_end then
      match m.id with
      | some fid =>
        match hmGet wi1 fid with
        | some sv =>
          workflowGo rest (hmRemove wi1 fid) ni1 lvt2
            (if 0 < lvt2 ∧ 0 < sv.2 then
              segs ++ [⟨sv.1, m.line_num, sv.2, lvt2, lvt2 - sv.2, some fid⟩]
            else segs)
        | none => workflowGo rest wi1 ni1 lvt2 segs
      | none =>
        match ni1 with
        | sv :: tail =>
          workflowGo rest wi1 tail lvt2
            (if 0 < lvt2 ∧ 0 < sv.2 then
              segs ++ [⟨sv.1, m.line_num, sv.2, lvt2, lvt2 - sv.2, none⟩]
            else segs)
        | [] => workflowGo rest wi1 ni1 lvt2 segs
    else workflowGo rest wi1 ni1 lvt2 segs

/-- `analyze_workflow_duration` (lib.rs:898-1015) with compiled regexes.
The `id_re` argument is the compiled optional id regex (`None` both for a
missing and for an empty `id_regex`, lib.rs:912-918). -/
def analyze_workflow_duration (start_re end_re ts_re : CRegex) (id_re : Option CRegex)
    (parseF64 : String → Option ℚ) (parseDate : String → String → Option ℤ)
    (idx : LogIndex) : List WorkflowSegment :=
  workflowGo (mkMetas start_re end_re ts_re id_re parseF64 parseDate idx) [] [] 0 []

/-- Positive timestamps of the extracted metas are non-decreasing, starting
no lower than the given baseline: the monotonicity hypothesis of the
amended C7. -/
def posTsMonoB : ℚ → List LineMeta → Bool
  | _, [] => true
  | c, m :: rest =>
    if 0 < m.ts then decide (c ≤ m.ts) && posTsMonoB m.ts rest
    else posTsMonoB c rest

/-! ## Specification predicates -/

/-- Consecutive sessions are adjacent: the next starts right after the
previous ends. -/
def sessAdj (a b : LogSession) : Prop := b.start_line = a.end_line + 1

/-- The session-list shape asserted by C2 for a file of `n` lines: ids
count up from 0, consecutive sessions are adjacent, the first starts at
line 1, the last ends at line `n`, the line counts of the sessions sum to
`n`, and an empty file yields the single session `{0, 1, 0, "Full Log"}`. -/
def SessionsWF (sessions : List LogSession) (n : Nat) : Prop :=
  sessions ≠ [] ∧
  sessions.map LogSession.id = List.range sessions.length ∧
  List.Chain' sessAdj sessions ∧
  (∀ x ∈ sessions.head?, x.start_line = 1) ∧
  (∀ z ∈ sessions.getLast?, z.end_line = n) ∧
  (sessions.map (fun s => (s.end_line : ℤ) + 1 - s.start_line)).sum = (n : ℤ) ∧
  (n = 0 → sessions = [⟨0, 1, 0, "Full Log"⟩])

/-- Loop invariant of `segLoop` before processing line index `i` with
running session start `cs`, next session id `sid` and emitted prefix
`acc`. -/
def SegInv (acc : List LogSession) (cs sid i : Nat) : Prop :=
  acc.map LogSession.id = List.range sid ∧
  List.Chain' sessAdj acc ∧
  (∀ x ∈ acc.head?, x.start_line = 1) ∧
  (∀ z ∈ acc.getLast?, z.end_line + 1 = cs) ∧
  (acc = [] → cs = 1) ∧
  (acc ≠ [] → 1 ≤ i) ∧
  (acc.map (fun s => (s.end_line : ℤ) + 1 - s.start_line)).sum = (cs : ℤ) - 1

/-- Strictly ascending line numbers. -/
def linesAscending (l : List LogLine) : Prop :=
  l.Pairwise (fun a b => a.line_number < b.line_number)

/-- Ascending line numbers on the success channel. -/
def resultAscending : Except String (List LogLine) → Prop
  | Except.ok l => linesAscending l
  | Except.error _ => True

/-! ## Concrete oracle instances and inputs for witnesses and
counterexamples.  Each models the behaviour of the corresponding external
call on exactly the ASCII strings it is applied to below. -/

/-- `String::from_utf8_lossy` restricted to ASCII bytes (all concrete byte
inputs below are ASCII): one character per byte. -/
def asciiDecode (_e : FileEncoding) (b : List Nat) : String :=
  String.mk (b.map Char.ofNat)

/-- The nine case-insensitive words matched by the default boot pattern
`(?i)(system|boot|start)(ed|ing|up)`. -/
def defaultBootWords : List String :=
  ["systemed", "systeming", "systemup", "booted", "booting", "bootup",
   "started", "starting", "startup"]

/-- Matching behaviour of the compiled default boot regex: some expansion
of the alternation occurs in the lowercased line. -/
def defaultBootMatch (s : String) : Bool :=
  defaultBootWords.any fun w => strContains (strLower s) w

/-- Model of the compiled default boot regex (only its `is_match` is ever
consumed). -/
def defaultBootRe : CRegex := ⟨defaultBootMatch, fun _ => none⟩

/-- The eight level words of the default level pattern. -/
def levelWords : List String :=
  ["DEBUG", "INFO", "WARN", "ERROR", "FATAL", "NORM", "TRACE", "SUCCESS"]

/-- Capture behaviour of the compiled default level regex on lines whose
bracketed level tag, if any, is upper-case (true of every concrete line
below): group 0 is `[WORD]`, group 1 the word. -/
def defaultLevelCapture (s : String) : Option (List (Option String)) :=
  levelWords.findSome? fun w =>
    if strContains s ("[" ++ w ++ "]") then some [some ("[" ++ w ++ "]"), some w]
    else none

/-- Model of the compiled default level regex. -/
def defaultLevelRe : CRegex :=
  ⟨fun s => (defaultLevelCapture s).isSome, defaultLevelCapture⟩

/-- Model of `Regex::new` on the pattern strings it receives below: the two
default patterns compile (to the models above) and every other pattern —
in particular the malformed `"("`, which has an unclosed group — fails. -/
def modelCompile (p : String) : Option CRegex :=
  if p = defaultBootPattern then some defaultBootRe
  else if p = defaultLevelPattern then some defaultLevelRe
  else none

/-- A compilation oracle under which every pattern fails; usable wherever
the concrete run never consults a successfully compiled regex. -/
def noCompile : String → Option CRegex := fun _ => none

/-- The bytes of the two-line ASCII file `"a\nb"`. -/
def bytesAB : List Nat := [0x61, 0x0A, 0x62]

/-- The index `open` builds for `bytesAB` under `noCompile` and
`asciiDecode`. -/
def resAB : OpenResult :=
  ⟨[0, 2], [none, none], FileEncoding.utf8, 2, 1, 3⟩

/-- The bytes of the one-line ASCII file `"system booted"`. -/
def sysBytes : List Nat := "system booted".data.map Char.toNat

/-- The result `open` produces for `sysBytes` when both user regexes are
the malformed `"("`: no levels, session count 1. -/
def cex3res : OpenResult := ⟨[0], [none], FileEncoding.utf8, 1, 1, 13⟩

/-- Two-line index whose second line matches the default boot pattern. -/
def cIdx4 : LogIndex := ⟨["a\n", "system booted"], [none, none]⟩

/-- Five-line index used for the range counterexample. -/
def cIdx5 : LogIndex :=
  ⟨["a\n", "b\n", "c\n", "d\n", "e"], [none, none, none, none, none]⟩

/-- Three-line index whose first and third lines contain `"a"`. -/
def cIdx6 : LogIndex := ⟨["a\n", "b\n", "a\n"], [none, none, none]⟩

/-- One-line index for the trivial-query witness. -/
def cIdx9 : LogIndex := ⟨["x"], [none]⟩

/-- Workflow regexes: a start line contains `START`, an end line `END`. -/
def startRe7 : CRegex := ⟨fun s => strContains s "START", fun _ => none⟩

/-- See `startRe7`. -/
def endRe7 : CRegex := ⟨fun s => strContains s "END", fun _ => none⟩

/-- Timestamp regex model capturing the digits after the leading `T` of the
four concrete workflow lines.  (The values are two large millisecond
timestamps, past the `10^10` seconds/milliseconds threshold.) -/
def tsRe7 : CRegex :=
  ⟨fun _ => true, fun s =>
    if s = "T30000000000 START" then some [some s, some "30000000000"]
    else if s = "T20000000000 END" then some [some s, some "20000000000"]
    else if s = "T20000000000 START" then some [some s, some "20000000000"]
    else if s = "T30000000000 END" then some [some s, some "30000000000"]
    else none⟩

/-- `f64` parsing restricted to the two numerals above. -/
def pf64Digits : String → Option ℚ := fun s =>
  if s = "30000000000" then some 30000000000
  else if s = "20000000000" then some 20000000000
  else none

/-- A date oracle under which no string parses (true of every string fed to
it below). -/
def noDate : String → String → Option ℤ := fun _ _ => none

/-- Two workflow lines whose timestamps go backwards. -/
def cIdx7 : LogIndex := ⟨["T30000000000 START", "T20000000000 END"], [none, none]⟩

/-- Two workflow lines whose timestamps increase. -/
def cIdx7w : LogIndex := ⟨["T20000000000 START", "T30000000000 END"], [none, none]⟩

/-! ## Theorems -/

/-- Claim C8: for every input string `s`, `parse_timestamp_to_ms` returns
`v * 1000` when `s` parses as a float `v` with `v < 10^10`, returns `v`
itself when `v ≥ 10^10`, and returns `0` when `s` neither parses as a
float nor matches any of the listed date formats. -/
theorem parse_timestamp_to_ms_cases (parseF64 : String → Option ℚ)
    (parseDate : String → String → Option ℤ) (s : String) :
    (∀ v, parseF64 s = some v → v < 10000000000 →
      parse_timestamp_to_ms parseF64 parseDate s = v * 1000) ∧
    (∀ v, parseF64 s = some v → 10000000000 ≤ v →
      parse_timestamp_to_ms parseF64 parseDate s = v) ∧
    (parseF64 s = none → (∀ fmt ∈ timestampFormats, parseDate fmt s = none) →
      parse_timestamp_to_ms parseF64 parseDate s = 0) := by
  refine ⟨?_, ?_, ?_⟩
  · intro v hv hlt
    simp [parse_timestamp_to_ms, hv, hlt]
  · intro v hv hge
    simp [parse_timestamp_to_ms, hv, not_lt.2 hge]
  · intro hnone hfmt
    have h2 : timestampFormats.findSome? (fun fmt => parseDate fmt s) = none :=
      List.findSome?_eq_none_iff.2 hfmt
    simp [parse_timestamp_to_ms, hnone, h2]

/-- `f64` parsing restricted to the numeral `"5"`. -/
theorem parse_timestamp_to_ms_cases_witness :
    (fun t => if t = "5" then some (5 : ℚ) else none) "5" = some 5 ∧
    parse_timestamp_to_ms (fun t => if t = "5" then some (5 : ℚ) else none) noDate "5" =
      5 * 1000 :=
  ⟨rfl, (parse_timestamp_to_ms_cases (fun t => if t = "5" then some (5 : ℚ) else none)
    noDate "5").1 5 rfl (by norm_num)⟩

/-- Claim C9: with an index installed, a query that is empty or consists
only of carriage returns and newlines makes `search_log` return `Ok` with
the empty list, for every `is_regex` flag and every `line_ranges`
argument. -/
theorem search_log_newline_query_ok (query : String)
    (hq : ∀ c ∈ query.data, isNlCr c = true) (is_regex : Bool)
    (compileCI : String → Option CRegex) (line_ranges : Option (List (Nat × Nat)))
    (idx : LogIndex) :
    search_log query is_regex compileCI line_ranges idx = Except.ok [] := by
  have h1 : query.data.dropWhile isNlCr = [] :=
    List.dropWhile_eq_nil_iff.2 (fun x hx => hq x hx)
  have h2 : trimNewlines query = "" := by
    unfold trimNewlines
    rw [h1]
    rfl
  simp [search_log, h2]

/-- The trivial query on a concrete index. -/
theorem search_log_newline_query_ok_witness :
    search_log "\r\n" true noCompile (some [(1, 1)]) cIdx9 = Except.ok [] :=
  search_log_newline_query_ok "\r\n" (by decide) true noCompile (some [(1, 1)]) cIdx9

/-- Claim C5, counterexample: on a five-line index, `range(3, 3)` has
`start_line ≥ end_line` yet returns line 3 rather than the empty list. -/
theorem get_log_range_eq_bounds_counterexample :
    3 ≥ 3 ∧ get_log_range 3 3 cIdx5 = [⟨3, "c\n", none⟩] ∧
      get_log_range 3 3 cIdx5 ≠ [] := by
  refine ⟨le_refl 3, by decide, by decide⟩

/-- Claim C5 (amended): `get_log_range` returns exactly the lines numbered
`max start_line 1` through `min end_line line_count`, in ascending order,
with the indexed content and level of each; it returns the empty list
whenever `start_line > end_line` (not whenever `start_line ≥ end_line`:
`start_line = end_line` in range returns that single line). -/
theorem get_log_range_correct (start_line end_line : Nat) (idx : LogIndex) :
    (get_log_range start_line end_line idx).map LogLine.line_number =
      List.range' (max start_line 1)
        (min end_line idx.lines.length + 1 - max start_line 1) ∧
    (∀ L ∈ get_log_range start_line end_line idx,
      L.content = idx.lines.getD (L.line_number - 1) "" ∧
      L.level = idx.levels.getD (L.line_number - 1) none) ∧
    (end_line < start_line → get_log_range start_line end_line idx = []) := by
  have hM : 1 ≤ max start_line 1 := le_max_right _ _
  refine ⟨?_, ?_, ?_⟩
  · by_cases hif :
      min end_line idx.lines.length ≤ min (max start_line 1 - 1) idx.lines.length
    · rw [get_log_range, if_pos hif]
      have : min end_line idx.lines.length + 1 - max start_line 1 = 0 := by omega
      rw [this]
      rfl
    · rw [get_log_range, if_neg hif]
      rw [List.map_map]
      have hcomp :
          (LogLine.line_number ∘ fun i =>
            (⟨i + 1, idx.lines.getD i "", idx.levels.getD i none⟩ : LogLine)) =
          (fun i => 1 + i) := by
        funext i
        simp [Nat.add_comm]
      rw [hcomp, List.map_add_range']
      rw [List.range'_inj]
      constructor
      · omega
      · omega
  · intro L hL
    by_cases hif :
      min end_line idx.lines.length ≤ min (max start_line 1 - 1) idx.lines.length
    · rw [get_log_range, if_pos hif] at hL
      simp at hL
    · rw [get_log_range, if_neg hif] at hL
      simp only [List.mem_map] at hL
      obtain ⟨i, _hi, rfl⟩ := hL
      exact ⟨rfl, rfl⟩
  · intro hlt
    have hif :
        min end_line idx.lines.length ≤ min (max start_line 1 - 1) idx.lines.length := by
      omega
    rw [get_log_range, if_pos hif]

/-- The clamp-and-order theorem applied at the empty case `range(7, 3)`. -/
theorem get_log_range_correct_witness :
    3 < 7 ∧ get_log_range 7 3 cIdx5 = [] :=
  ⟨by decide, (get_log_range_correct 7 3 cIdx5).2.2 (by decide)⟩

/-- Claim C3, counterexample: opening the file `"system booted"` with the
malformed boot regex `"("` yields session count 1, while the default boot
regex yields 2 — the failed compilation does not fall back to the
default. -/
theorem regex_fallback_counterexample :
    (parse_log_file modelCompile asciiDecode "(" "(" sysBytes).map OpenResult.sessions =
      some 1 ∧
    (parse_log_file modelCompile asciiDecode "" "" sysBytes).map OpenResult.sessions =
      some 2 := by
  constructor
  · decide
  · decide

/-- Claim C3 (amended): a non-empty level or boot regex that fails to
compile does NOT fall back to the default pattern — `open` proceeds with no
regex at all: every per-line level is absent, and the returned session
count is 1.  The default patterns are used only when the corresponding
argument is the empty string. -/
theorem regex_failure_no_fallback (compile : String → Option CRegex)
    (decode : FileEncoding → List Nat → String) (boot_regex level_regex : String)
    (bytes : List Nat) (res : OpenResult)
    (hopen : parse_log_file compile decode boot_regex level_regex bytes = some res) :
    (level_regex ≠ "" → compile level_regex = none → ∀ o ∈ res.levels, o = none) ∧
    (boot_regex ≠ "" → compile boot_regex = none → res.sessions = 1) := by
  simp only [parse_log_file] at hopen
  rcases hs : lineSlices bytes (computeOffsets bytes) with _ | slices
  · rw [hs] at hopen
    exact absurd hopen (by simp)
  · rw [hs] at hopen
    simp only [Option.some.injEq] at hopen
    subst hopen
    constructor
    · intro hne hcomp o ho
      have hre : mkLevelRe compile level_regex = none := by
        rw [mkLevelRe, if_pos hne, hcomp]
      rw [hre] at ho
      simp [computeLevels] at ho
      exact ho.2.symm
    · intro hne hcomp
      have hre : mkBootRe compile boot_regex = none := by
        rw [mkBootRe, if_pos hne, hcomp]
      rw [hre]
      rfl

/-- The no-fallback theorem applied to the `"("` regexes on
`"system booted"`. -/
theorem regex_failure_no_fallback_witness :
    cex3res.sessions = 1 :=
  (regex_failure_no_fallback modelCompile asciiDecode "(" "(" sysBytes cex3res
    (by decide)).2 (by decide) rfl

/-- A `segLoop` whose step never signals a split emits exactly one tail
session covering all lines. -/
theorem segLoop_no_split {σ : Type} (step : Nat → String → σ → Bool × String × σ)
    (hstep : ∀ i l st, (step i l st).1 = false) (lines : List String) :
    ∀ (i cs sid : Nat) (st : σ) (acc : List LogSession),
    segLoop step lines i cs sid st acc =
      acc ++ [⟨sid, cs, i + lines.length,
        if 0 < i + lines.length then "End of File" else "Full Log"⟩] := by
  induction lines with
  | nil =>
    intro i cs sid st acc
    simp [segLoop]
  | cons l rest ih =>
    intro i cs sid st acc
    rw [segLoop]
    simp only [hstep, false_and, if_false]
    have hlen : i + (l :: rest).length = (i + 1) + rest.length := by
      simp [List.length_cons]
      omega
    rw [hlen]
    exact ih (i + 1) cs sid _ acc

/-- Claim C4, counterexample: on a two-line file whose second line matches
the default boot pattern, an empty splitter set returns the single
whole-file session, while `parse_log_content` with the default boot regex
splits at line 2 — the two operators disagree. -/
theorem empty_splitters_counterexample :
    (parse_log_with_custom_splitters modelCompile [] cIdx4).sessions =
      [⟨0, 1, 2, "End of File"⟩] ∧
    (parse_log_content modelCompile "" "" 0 (fun _ => none) (fun _ => "") cIdx4).sessions =
      [⟨0, 1, 1, "system booted"⟩, ⟨1, 2, 2, "End of File"⟩] ∧
    [(⟨0, 1, 2, "End of File"⟩ : LogSession)] ≠
      [⟨0, 1, 1, "system booted"⟩, ⟨1, 2, 2, "End of File"⟩] := by
  refine ⟨by decide, by decide, by decide⟩

/-- Claim C4 (amended): with an empty splitter set (an empty list, or one
of empty strings only), `parse_log_with_custom_splitters` emits one single
session spanning the whole file — `{0, 1, line_count, "End of File"}`, or
`{0, 1, 0, "Full Log"}` for an empty file.  It does not degrade to the
boot-regex segmentation: no default boot regex is applied, so the two
operators agree only on files none of whose lines after the first match
the default boot pattern. -/
theorem empty_splitters_single_session (compile : String → Option CRegex)
    (splitter_regexes : List String) (idx : LogIndex)
    (hempty : ∀ r ∈ splitter_regexes, r = "") :
    (parse_log_with_custom_splitters compile splitter_regexes idx).sessions =
      [⟨0, 1, idx.lines.length,
        if 0 < idx.lines.length then "End of File" else "Full Log"⟩] := by
  have hcs : (splitter_regexes.filterMap fun r => if r = "" then none else compile r)
      = [] := by
    rw [List.filterMap_eq_nil_iff]
    intro a ha
    rw [if_pos (hempty a ha)]
  show segLoop _ idx.lines 0 1 0 () [] = _
  rw [hcs]
  rw [segLoop_no_split _ (fun _ _ _ => rfl) idx.lines 0 1 0 () []]
  simp

/-- The single-session theorem applied to the splitter list `[""]`. -/
theorem empty_splitters_single_session_witness :
    (parse_log_with_custom_splitters noCompile [""] cIdx9).sessions =
      [⟨0, 1, 1, "End of File"⟩] := by
  have h := empty_splitters_single_session noCompile [""] cIdx9 (by decide)
  simpa [cIdx9] using h

/-- Closing the running session preserves the structural facts tracked by
`SegInv`: ids stay an initial segment, adjacency extends, the head still
starts at 1, the new element is last, and the coverage sum reaches `i`. -/
theorem segInv_append (acc : List LogSession) (cs sid i : Nat) (marker : String)
    (hinv : SegInv acc cs sid i) :
    (acc ++ [(⟨sid, cs, i, marker⟩ : LogSession)]).map LogSession.id =
      List.range (sid + 1) ∧
    List.Chain' sessAdj (acc ++ [⟨sid, cs, i, marker⟩]) ∧
    (∀ y ∈ (acc ++ [(⟨sid, cs, i, marker⟩ : LogSession)]).head?, y.start_line = 1) ∧
    (acc ++ [(⟨sid, cs, i, marker⟩ : LogSession)]).getLast? =
      some ⟨sid, cs, i, marker⟩ ∧
    ((acc ++ [(⟨sid, cs, i, marker⟩ : LogSession)]).map
      (fun s => (s.end_line : ℤ) + 1 - s.start_line)).sum = (i : ℤ) := by
  obtain ⟨hid, hchain, hhead, hlast, hemp, _hne, hsum⟩ := hinv
  refine ⟨?_, ?_, ?_, List.getLast?_concat _, ?_⟩
  · rw [List.map_append, hid, List.range_succ]
    rfl
  · rw [List.chain'_append]
    refine ⟨hchain, List.chain'_singleton _, ?_⟩
    intro z hz y hy
    simp only [List.head?_cons, Option.mem_def, Option.some.injEq] at hy
    subst hy
    exact (hlast z hz).symm
  · rcases acc with _ | ⟨a, as⟩
    · intro y hy
      simp only [List.nil_append, List.head?_cons, Option.mem_def,
        Option.some.injEq] at hy
      subst hy
      exact hemp rfl
    · intro y hy
      simp only [List.cons_append, List.head?_cons, Option.mem_def,
        Option.some.injEq] at hy
      subst hy
      exact hhead a (by simp)
  · rw [List.map_append, List.sum_append, hsum]
    simp only [List.map_cons, List.map_nil, List.sum_cons, List.sum_nil]
    omega

/-- Every `segLoop` run from a state satisfying `SegInv` produces a
well-formed session list for the total number of lines, whatever the split
decisions are. -/
theorem segLoop_wf {σ : Type} (step : Nat → String → σ → Bool × String × σ)
    (lines : List String) :
    ∀ (i cs sid : Nat) (st : σ) (acc : List LogSession), SegInv acc cs sid i →
    SessionsWF (segLoop step lines i cs sid st acc) (i + lines.length) := by
  induction lines with
  | nil =>
    intro i cs sid st acc hinv
    obtain ⟨happ1, happ2, happ3, happ4, happ5⟩ :=
      segInv_append acc cs sid i (if 0 < i then "End of File" else "Full Log") hinv
    obtain ⟨hid, _hchain, _hhead, _hlast, hemp, hne, _hsum⟩ := hinv
    rw [segLoop]
    have hlenacc : acc.length = sid := by
      have h := congrArg List.length hid
      simpa using h
    have hn : i + ([] : List String).length = i := by simp
    rw [hn]
    refine ⟨by simp, ?_, happ2, happ3, ?_, happ5, ?_⟩
    · rw [happ1]
      congr 1
      simp [hlenacc]
    · intro z hz
      rw [happ4] at hz
      simp only [Option.mem_def, Option.some.injEq] at hz
      subst hz
      rfl
    · intro hi0
      subst hi0
      by_cases hacc : acc = []
      · subst hacc
        have hsid : sid = 0 := by
          have h0 : List.range sid = [] := hid.symm
          simpa [List.range_eq_nil] using h0
        have hcs : cs = 1 := hemp rfl
        subst hsid
        subst hcs
        rfl
      · exact absurd (hne hacc) (by omega)
  | cons l rest ih =>
    intro i cs sid st acc hinv
    simp only [segLoop]
    have hlen : i + (l :: rest).length = (i + 1) + rest.length := by
      simp
      omega
    rw [hlen]
    by_cases hsplit : ((step i l st).1 : Prop) ∧ 0 < i
    · rw [if_pos hsplit]
      apply ih
      obtain ⟨happ1, happ2, happ3, happ4, happ5⟩ :=
        segInv_append acc cs sid i (step i l st).2.1 hinv
      refine ⟨happ1, happ2, happ3, ?_, ?_, ?_, ?_⟩
      · intro z hz
        rw [happ4] at hz
        simp only [Option.mem_def, Option.some.injEq] at hz
        subst hz
        rfl
      · intro h
        simp at h
      · intro _
        omega
      · rw [happ5]
        push_cast
        ring
    · rw [if_neg hsplit]
      apply ih
      obtain ⟨hid, hchain, hhead, hlast, hemp, hne, hsum⟩ := hinv
      exact ⟨hid, hchain, hhead, hlast, hemp, fun h => Nat.le_succ_of_le (hne h), hsum⟩

/-- Claim C2: both segmentation operators — `parse_log_content` and
`parse_log_with_custom_splitters` — emit, for every installed index and all
arguments, sessions whose ids increase from 0, that are adjacent
(`start_line_next = end_line_prev + 1`), start at line 1, end at
`line_count`, and whose line counts sum to `line_count`; an empty file
yields the single session `{0, 1, 0, "Full Log"}`. -/
theorem segmentation_sessionsWF (compile : String → Option CRegex)
    (boot_regex timestamp_regex : String) (time_gap_threshold : ℚ)
    (tryTs : String → Option ℚ) (gapFmt : ℚ → String)
    (splitter_regexes : List String) (idx : LogIndex) :
    SessionsWF (parse_log_content compile boot_regex timestamp_regex
        time_gap_threshold tryTs gapFmt idx).sessions idx.lines.length ∧
    SessionsWF (parse_log_with_custom_splitters compile splitter_regexes idx).sessions
      idx.lines.length := by
  have hinv : SegInv [] 1 0 0 :=
    ⟨rfl, List.chain'_nil, by simp, by simp, fun _ => rfl, by simp, by norm_num⟩
  constructor
  · have h := segLoop_wf
      (plcStep (mkBootRe compile boot_regex)
        (if timestamp_regex ≠ "" then compile timestamp_regex else none)
        time_gap_threshold tryTs gapFmt)
      idx.lines 0 1 0 none [] hinv
    rw [Nat.zero_add] at h
    exact h
  · have h := segLoop_wf
      (fun _i l _u =>
        ((splitter_regexes.filterMap fun r =>
            if r = "" then none else compile r).any fun re => re.is_match l,
          strTrim l, ()))
      idx.lines 0 1 0 () [] hinv
    rw [Nat.zero_add] at h
    exact h

/-- Membership in a guarded `some` forces the value. -/
theorem mem_ite_some {α : Type} {c : Prop} [Decidable c] {r x : α}
    (hx : x ∈ (if c then some r else none)) : x = r := by
  split at hx
  · rw [Option.mem_def, Option.some.injEq] at hx
    exact hx.symm
  · simp at hx

/-- Every search block has strictly increasing line numbers. -/
theorem searchBlock_ascending (f : String → Bool) (idx : LogIndex) (a b : Nat) :
    linesAscending (searchBlock f idx a b) := by
  unfold linesAscending searchBlock
  refine List.Pairwise.filterMap _ ?_ (List.pairwise_lt_range' a (b - a))
  intro i j hij x hx y hy
  have hxn : x = (⟨i + 1, stripTrailing (idx.lines.getD i ""),
      idx.levels.getD i none⟩ : LogLine) := mem_ite_some hx
  have hyn : y = (⟨j + 1, stripTrailing (idx.lines.getD j ""),
      idx.levels.getD j none⟩ : LogLine) := mem_ite_some hy
  rw [hxn, hyn]
  simpa using hij

/-- Members of a search block have line numbers inside the block. -/
theorem searchBlock_mem_bounds (f : String → Bool) (idx : LogIndex) (a b : Nat)
    (x : LogLine) (hx : x ∈ searchBlock f idx a b) :
    a < x.line_number ∧ x.line_number ≤ b := by
  unfold searchBlock at hx
  rw [List.mem_filterMap] at hx
  obtain ⟨i, hi, hfx⟩ := hx
  rw [List.mem_range'] at hi
  obtain ⟨k, hk, rfl⟩ := hi
  rw [← Option.mem_def] at hfx
  have hxv : x = (⟨a + 1 * k + 1, stripTrailing (idx.lines.getD (a + 1 * k) ""),
      idx.levels.getD (a + 1 * k) none⟩ : LogLine) := mem_ite_some hfx
  rw [hxv]
  simp only []
  omega

/-- A clamped per-range block is ascending. -/
theorem rangeBlock_ascending (f : String → Bool) (idx : LogIndex) (r : Nat × Nat) :
    linesAscending (rangeBlock f idx r) := by
  unfold rangeBlock
  split_ifs with h
  · exact List.Pairwise.nil
  · exact searchBlock_ascending f idx _ _

/-- Members of a clamped per-range block lie inside the requested range. -/
theorem rangeBlock_mem_bounds (f : String → Bool) (idx : LogIndex) (r : Nat × Nat)
    (x : LogLine) (hx : x ∈ rangeBlock f idx r) :
    r.1 ≤ x.line_number ∧ x.line_number ≤ r.2 := by
  unfold rangeBlock at hx
  split_ifs at hx with h
  · simp at hx
  · obtain ⟨h1, h2⟩ := searchBlock_mem_bounds f idx _ _ x hx
    omega

/-- Concatenating per-range blocks over pairwise-separated ranges stays
ascending. -/
theorem searchBlocks_ascending (f : String → Bool) (idx : LogIndex) :
    ∀ ranges : List (Nat × Nat),
    List.Pairwise (fun p q => p.2 < q.1) ranges →
    linesAscending (ranges.flatMap (rangeBlock f idx)) := by
  intro ranges
  induction ranges with
  | nil =>
    intro _
    simp [linesAscending]
  | cons r rs ih =>
    intro h
    rw [List.pairwise_cons] at h
    obtain ⟨hr, hrs⟩ := h
    rw [List.flatMap_cons]
    unfold linesAscending
    rw [List.pairwise_append]
    refine ⟨rangeBlock_ascending f idx r, ih hrs, ?_⟩
    intro x hx y hy
    obtain ⟨_, hx2⟩ := rangeBlock_mem_bounds f idx r x hx
    rw [List.mem_flatMap] at hy
    obtain ⟨q, hq, hyq⟩ := hy
    obtain ⟨hy1, _⟩ := rangeBlock_mem_bounds f idx q y hyq
    have hlt := hr q hq
    omega

/-- Claim C6, counterexample: with the range list `[(3,3), (1,1)]` — legal
input, merely not ascending — `search_log` returns line 3 before line 1:
the output is not ascending by line number. -/
theorem search_order_counterexample :
    search_log "a" false noCompile (some [(3, 3), (1, 1)]) cIdx6 =
      Except.ok [⟨3, "a", none⟩, ⟨1, "a", none⟩] ∧
    ¬ linesAscending [(⟨3, "a", none⟩ : LogLine), ⟨1, "a", none⟩] := by
  constructor
  · rfl
  · intro h
    rw [linesAscending, List.pairwise_cons] at h
    have h31 := h.1 ⟨1, "a", none⟩ (by simp)
    exact absurd h31 (by decide)

/-- Claim C6 (amended): the search result is ascending by line number when
`line_ranges` is absent, and, when it is present, whenever the ranges are
pairwise separated in the given order (`end_i < start_j` for `i < j`); in
general the output is the concatenation of the per-range results in the
order the caller listed the ranges, so overlapping or out-of-order range
lists can produce out-of-order (or duplicated) entries. -/
theorem search_log_ascending (query : String) (is_regex : Bool)
    (compileCI : String → Option CRegex) (idx : LogIndex) :
    resultAscending (search_log query is_regex compileCI none idx) ∧
    (∀ ranges : List (Nat × Nat),
      List.Pairwise (fun p q => p.2 < q.1) ranges →
      resultAscending (search_log query is_regex compileCI (some ranges) idx)) := by
  constructor
  · unfold search_log
    by_cases hq : trimNewlines query = ""
    · simp [hq, resultAscending, linesAscending]
    · simp only [hq, if_false]
      rcases hsf : searchFn (trimNewlines query) is_regex compileCI with e | f
      · exact trivial
      · exact searchBlock_ascending f idx 0 idx.lines.length
  · intro ranges hsep
    unfold search_log
    by_cases hq : trimNewlines query = ""
    · simp [hq, resultAscending, linesAscending]
    · simp only [hq, if_false]
      rcases hsf : searchFn (trimNewlines query) is_regex compileCI with e | f
      · exact trivial
      · by_cases hr : ranges = []
        · simp [hr, resultAscending, linesAscending]
        · simp only [hr, if_false]
          exact searchBlocks_ascending f idx ranges hsep

/-- The ascending theorem applied to the separated range list
`[(1,1), (3,3)]`. -/
theorem search_log_ascending_witness :
    resultAscending (search_log "a" false noCompile (some [(1, 1), (3, 3)]) cIdx6) :=
  (search_log_ascending "a" false noCompile cIdx6).2 [(1, 1), (3, 3)]
    (by simp [List.pairwise_cons])

/-- A start-line update keeps every recorded start timestamp at or below
the current `last_valid_ts`. -/
theorem wfUpdateWi_bound (m : LineMeta) (wi : List (String × Nat × ℚ)) (lvt2 : ℚ)
    (h : ∀ p ∈ wi, p.2.2 ≤ lvt2) :
    ∀ p ∈ wfUpdateWi m wi lvt2, p.2.2 ≤ lvt2 := by
  intro p hp
  unfold wfUpdateWi at hp
  split at hp
  · split at hp
    · rcases List.mem_cons.1 hp with h1 | h2
      · rw [h1]
      · exact h p (List.mem_of_mem_filter h2)
    · exact h p hp
  · exact h p hp

/-- Same bound for the no-id stack. -/
theorem wfUpdateNi_bound (m : LineMeta) (ni : List (Nat × ℚ)) (lvt2 : ℚ)
    (h : ∀ p ∈ ni, p.2 ≤ lvt2) :
    ∀ p ∈ wfUpdateNi m ni lvt2, p.2 ≤ lvt2 := by
  intro p hp
  unfold wfUpdateNi at hp
  split at hp
  · split at hp
    · exact h p hp
    · rcases List.mem_cons.1 hp with h1 | h2
      · rw [h1]
      · exact h p h2
  · exact h p hp

/-- The invariant run of the sequential workflow pass: if the positive
timestamps ahead are non-decreasing from `lvt` on, every recorded start
timestamp is at most `lvt`, and the segments emitted so far are ordered,
then every segment ever emitted is ordered (`start_time ≤ end_time`,
`0 ≤ duration_ms`). -/
theorem workflowGo_nonneg :
    ∀ (metas : List LineMeta) (wi : List (String × Nat × ℚ)) (ni : List (Nat × ℚ))
      (lvt : ℚ) (segs : List WorkflowSegment),
    posTsMonoB lvt metas = true →
    (∀ p ∈ wi, p.2.2 ≤ lvt) →
    (∀ p ∈ ni, p.2 ≤ lvt) →
    (∀ t ∈ segs, t.start_time ≤ t.end_time ∧ 0 ≤ t.duration_ms) →
    ∀ s ∈ workflowGo metas wi ni lvt segs,
      s.start_time ≤ s.end_time ∧ 0 ≤ s.duration_ms := by
  intro metas
  induction metas with
  | nil =>
    intro wi ni lvt segs _ _ _ hsegs s hs
    exact hsegs s hs
  | cons m rest ih =>
    intro wi ni lvt segs hmono hwi hni hsegs s hs
    simp only [workflowGo] at hs
    have hstep0 : lvt ≤ (if 0 < m.ts then m.ts else lvt) ∧
        posTsMonoB (if 0 < m.ts then m.ts else lvt) rest = true := by
      simp only [posTsMonoB] at hmono
      by_cases h : 0 < m.ts
      · rw [if_pos h] at hmono
        rw [if_pos h]
        simp only [Bool.and_eq_true, decide_eq_true_eq] at hmono
        exact hmono
      · rw [if_neg h] at hmono
        rw [if_neg h]
        exact ⟨le_refl lvt, hmono⟩
    generalize hg : (if 0 < m.ts then m.ts else lvt) = lvt2 at hs hstep0
    have hwi2 : ∀ p ∈ wfUpdateWi m wi lvt2, p.2.2 ≤ lvt2 :=
      wfUpdateWi_bound m wi _ (fun p hp => le_trans (hwi p hp) hstep0.1)
    have hni2 : ∀ p ∈ wfUpdateNi m ni lvt2, p.2 ≤ lvt2 :=
      wfUpdateNi_bound m ni _ (fun p hp => le_trans (hni p hp) hstep0.1)
    by_cases hend : m.is_end = true
    · simp only [hend, if_true] at hs
      rcases hid : m.id with _ | fid
      · simp only [hid] at hs
        rcases hni1c : wfUpdateNi m ni lvt2 with _ | ⟨sv, tail⟩
        · rw [hni1c] at hs
          exact ih _ _ _ _ hstep0.2 hwi2 (by rw [hni1c] at hni2; exact hni2) hsegs s hs
        · rw [hni1c] at hs
          have hsv : sv.2 ≤ lvt2 := by
            apply hni2
            rw [hni1c]
            exact List.mem_cons_self sv tail
          have htail : ∀ p ∈ tail, p.2 ≤ lvt2 := by
            intro p hp
            apply hni2
            rw [hni1c]
            exact List.mem_cons_of_mem sv hp
          refine ih _ _ _ _ hstep0.2 hwi2 htail ?_ s hs
          split
          · intro t ht
            rcases List.mem_append.1 ht with h1 | h2
            · exact hsegs t h1
            · simp only [List.mem_singleton] at h2
              subst h2
              exact ⟨hsv, sub_nonneg.mpr hsv⟩
          · exact hsegs
      · simp only [hid] at hs
        rcases hget : hmGet (wfUpdateWi m wi lvt2) fid with _ | sv
        · rw [hget] at hs
          exact ih _ _ _ _ hstep0.2 hwi2 hni2 hsegs s hs
        · rw [hget] at hs
          have hsv : sv.2 ≤ lvt2 := by
            unfold hmGet at hget
            rcases Option.map_eq_some'.1 hget with ⟨p, hfind, hp2⟩
            have hpmem := List.mem_of_find?_eq_some hfind
            rw [← hp2]
            exact hwi2 p hpmem
          have hrem : ∀ p ∈ hmRemove (wfUpdateWi m wi lvt2) fid, p.2.2 ≤ lvt2 := by
            intro p hp
            exact hwi2 p (List.mem_of_mem_filter hp)
          refine ih _ _ _ _ hstep0.2 hrem hni2 ?_ s hs
          split
          · intro t ht
            rcases List.mem_append.1 ht with h1 | h2
            · exact hsegs t h1
            · simp only [List.mem_singleton] at h2
              subst h2
              exact ⟨hsv, sub_nonneg.mpr hsv⟩
          · exact hsegs
    · simp only [hend, if_false] at hs
      exact ih _ _ _ _ hstep0.2 hwi2 hni2 hsegs s hs

/-- Claim C7, counterexample: with timestamps that go backwards (30e9 ms at
the start line, 20e9 ms at the end line), `analyze_workflow_duration` emits
a segment whose `duration_ms = 20e9 - 30e9` is negative and whose
`end_time` is below its `start_time`. -/
theorem workflow_negative_duration_counterexample :
    analyze_workflow_duration startRe7 endRe7 tsRe7 none pf64Digits noDate cIdx7 =
      [⟨1, 2, 30000000000, 20000000000,
        (20000000000 : ℚ) - 30000000000, none⟩] ∧
    ((20000000000 : ℚ) - 30000000000 < 0) := by
  constructor
  · rfl
  · norm_num

/-- Claim C7 (amended): every segment emitted by
`analyze_workflow_duration` satisfies `duration_ms ≥ 0` (equivalently
`end_time ≥ start_time`) provided the positive timestamps extracted from
the file are non-decreasing in line order; for files whose parsed
timestamps go backwards the emitted duration can be negative. -/
theorem workflow_duration_nonneg_of_monotone (start_re end_re ts_re : CRegex)
    (id_re : Option CRegex) (parseF64 : String → Option ℚ)
    (parseDate : String → String → Option ℤ) (idx : LogIndex)
    (hmono : posTsMonoB 0
      (mkMetas start_re end_re ts_re id_re parseF64 parseDate idx) = true) :
    ∀ s ∈ analyze_workflow_duration start_re end_re ts_re id_re parseF64 parseDate idx,
      s.start_time ≤ s.end_time ∧ 0 ≤ s.duration_ms := by
  unfold analyze_workflow_duration
  exact workflowGo_nonneg _ [] [] 0 [] hmono (by simp) (by simp) (by simp)

/-- The monotone theorem applied to increasing timestamps 20e9 → 30e9 ms. -/
theorem workflow_duration_nonneg_witness :
    (⟨1, 2, 20000000000, 30000000000, (30000000000 : ℚ) - 20000000000,
        none⟩ : WorkflowSegment).start_time ≤
      (⟨1, 2, 20000000000, 30000000000, (30000000000 : ℚ) - 20000000000,
        none⟩ : WorkflowSegment).end_time ∧
    0 ≤ (⟨1, 2, 20000000000, 30000000000, (30000000000 : ℚ) - 20000000000,
        none⟩ : WorkflowSegment).duration_ms :=
  workflow_duration_nonneg_of_monotone startRe7 endRe7 tsRe7 none pf64Digits noDate
    cIdx7w (by decide)
    ⟨1, 2, 20000000000, 30000000000, (30000000000 : ℚ) - 20000000000, none⟩
    (by exact List.mem_singleton.mpr rfl)

/-- Parsing a `/`-refinement whose pattern fails to compile yields the
always-matching empty regex (lib.rs:1126-1129). -/
theorem parseRefinement_slash_failure (compileCI : String → Option CRegex) (r : String)
    (hslash : (strTrim r).data.head? = some '/')
    (hfail : compileCI (String.mk (strTrim r).data.tail) = none) :
    parseRefinement compileCI r = RefinementMode.rex modelEmptyRe := by
  simp only [parseRefinement]
  rw [hslash]
  rw [if_neg (by decide), if_pos rfl, hfail]
  rfl

/-- Claim C10: inside `get_filtered_indices`, a refinement starting with
`/` whose remainder fails to compile is silently replaced by the empty
regex, which matches every line: the call raises no error and that
refinement excludes no line — the result is the same as if the refinement
had not been passed at all. -/
theorem refinement_regex_failure_neutral (compileCI : String → Option CRegex)
    (log_levels : List String) (line_ranges : Option (List (Nat × Nat)))
    (highlights : List String) (context_lines : Nat)
    (before after : List String) (r : String) (idx : LogIndex)
    (hslash : (strTrim r).data.head? = some '/')
    (hfail : compileCI (String.mk (strTrim r).data.tail) = none) :
    get_filtered_indices compileCI log_levels line_ranges highlights context_lines
        (before ++ r :: after) idx =
      get_filtered_indices compileCI log_levels line_ranges highlights context_lines
        (before ++ after) idx := by
  have hne : ¬ strTrim r = "" := by
    intro h0
    rw [h0] at hslash
    exact absurd hslash (by decide)
  have hparse := parseRefinement_slash_failure compileCI r hslash hfail
  have hall : ∀ line : String,
      (((before ++ r :: after).filter (fun t => ¬ strTrim t = "")).map
        (parseRefinement compileCI)).all (fun m => refCheck m line) =
      (((before ++ after).filter (fun t => ¬ strTrim t = "")).map
        (parseRefinement compileCI)).all (fun m => refCheck m line) := by
    intro line
    rw [List.filter_append, List.filter_cons, List.filter_append,
      if_pos (by simp [hne])]
    rw [List.map_append, List.map_cons, List.map_append]
    rw [List.all_append, List.all_cons, List.all_append]
    rw [hparse]
    simp [refCheck, modelEmptyRe]
  simp only [get_filtered_indices]
  apply List.filter_congr
  intro i _hi
  rw [hall (idx.lines.getD i "")]

/-- The neutrality theorem applied to the single refinement `"/("`. -/
theorem refinement_regex_failure_neutral_witness :
    get_filtered_indices noCompile [] none [] 0 ["/("] cIdx9 =
      get_filtered_indices noCompile [] none [] 0 [] cIdx9 :=
  refinement_regex_failure_neutral noCompile [] none [] 0 [] [] "/(" cIdx9
    (by decide) rfl

/-- A filtered ascending range shifted right stays strictly increasing. -/
theorem filterRangeMap_pairwise (a n k : Nat) (p : Nat → Bool) :
    List.Pairwise (· < ·) (((List.range' a n).filter p).map (· + k)) := by
  rw [List.pairwise_map]
  exact ((List.pairwise_lt_range' a n).filter p).imp
    (fun h => Nat.add_lt_add_right h k)

/-- Elements of a filtered range shifted right by a positive amount exceed
the range base. -/
theorem filterRangeMap_lb (a n k : Nat) (hk : 0 < k) (p : Nat → Bool) (o : Nat)
    (ho : o ∈ ((List.range' a n).filter p).map (· + k)) : a < o := by
  rw [List.mem_map] at ho
  obtain ⟨i, hi, rfl⟩ := ho
  have hmem := (List.mem_filter.1 hi).1
  rw [List.mem_range'] at hmem
  obtain ⟨j, _hj, rfl⟩ := hmem
  omega

/-- The offset list before the final pop — the start offset followed by the
newline successors — is strictly increasing for every input and
encoding. -/
theorem offsetsPre_pairwise (bytes : List Nat) :
    List.Pairwise (· < ·) ((detectEncoding bytes).2 :: newlineOffsets bytes) := by
  rw [List.pairwise_cons]
  constructor
  · intro o ho
    simp only [newlineOffsets] at ho
    rcases henc : (detectEncoding bytes).1 with _ | _ | _ <;> rw [henc] at ho
    · exact filterRangeMap_lb _ _ _ (by omega) _ o ho
    · exact filterRangeMap_lb _ _ _ (by omega) _ o ho
    · exact filterRangeMap_lb _ _ _ (by omega) _ o ho
  · simp only [newlineOffsets]
    rcases henc : (detectEncoding bytes).1 with _ | _ | _
    · exact filterRangeMap_pairwise _ _ _ _
    · exact filterRangeMap_pairwise _ _ _ _
    · exact filterRangeMap_pairwise _ _ _ _

/-- The constructed offsets are strictly increasing. -/
theorem computeOffsets_pairwise (bytes : List Nat) :
    List.Pairwise (· < ·) (computeOffsets bytes) := by
  simp only [computeOffsets]
  split
  · exact List.Pairwise.sublist (List.dropLast_sublist _) (offsetsPre_pairwise bytes)
  · exact offsetsPre_pairwise bytes

/-- After the pop of a final entry equal to `bytes.len()`, the last offset
never equals `bytes.len()`. -/
theorem computeOffsets_last_ne_len (bytes : List Nat) (z : Nat)
    (hz : (computeOffsets bytes).getLast? = some z) : z ≠ bytes.length := by
  intro hzl
  subst hzl
  have hp := offsetsPre_pairwise bytes
  revert hz
  simp only [computeOffsets]
  split
  case isTrue h =>
    intro hz
    obtain ⟨hne2, heq⟩ := List.mem_getLast?_eq_getLast hz
    have hmem : bytes.length ∈
        ((detectEncoding bytes).2 :: newlineOffsets bytes).dropLast :=
      heq ▸ List.getLast_mem hne2
    have hsplit2 := List.dropLast_append_getLast? bytes.length h
    rw [← hsplit2] at hp
    have hlt := (List.pairwise_append.1 hp).2.2 bytes.length hmem bytes.length (by simp)
    omega
  case isFalse h =>
    intro hz
    exact h hz

/-- If sequencing all the fallible computations succeeds, each single one
succeeds. -/
theorem optionMapAll_forall {α β : Type} (f : α → Option β) :
    ∀ (l : List α) (ys : List β), optionMapAll f l = some ys →
    ∀ a ∈ l, ∃ b, f a = some b := by
  intro l
  induction l with
  | nil =>
    intro ys _ a ha
    exact absurd ha (List.not_mem_nil a)
  | cons x xs ih =>
    intro ys h a ha
    rw [optionMapAll] at h
    rcases hfx : f x with _ | b
    · rw [hfx] at h
      simp at h
    · rw [hfx] at h
      rcases hxs : optionMapAll f xs with _ | bs
      · rw [hxs] at h
        simp at h
      · rcases List.mem_cons.1 ha with h1 | h2
        · subst h1
          exact ⟨b, hfx⟩
        · exact ih bs hxs a h2

/-- When all line slices succeed, the last offset is at most the byte
length (the last slice runs up to `bytes.len()` and Rust slicing demands
`start ≤ end`). -/
theorem lineSlices_bound (bytes : List Nat) (offsets : List Nat)
    (slices : List (List Nat)) (h : lineSlices bytes offsets = some slices) :
    ∀ z ∈ offsets.getLast?, z ≤ bytes.length := by
  intro z hz
  have hne : offsets ≠ [] := by
    intro h0
    rw [h0] at hz
    exact absurd hz (by simp)
  have hlen : 0 < offsets.length := List.length_pos.2 hne
  have hmem : offsets.length - 1 ∈ List.range offsets.length := by
    rw [List.mem_range]
    omega
  obtain ⟨b, hb⟩ := optionMapAll_forall _ (List.range offsets.length) slices h _ hmem
  have hcond : ¬ (offsets.length - 1 + 1 < offsets.length) := by omega
  rw [if_neg hcond] at hb
  unfold checkedSlice at hb
  split_ifs at hb with hcs
  · have hgd : offsets.getD (offsets.length - 1) 0 = z := by
      rw [List.getLast?_eq_getElem?] at hz
      rw [List.getD_eq_getElem?_getD, hz]
      rfl
    omega

/-- In a strictly increasing list every element is at most the last one. -/
theorem mem_le_getLast (l : List Nat) (hp : List.Pairwise (· < ·) l) (o : Nat)
    (ho : o ∈ l) (z : Nat) (hz : l.getLast? = some z) : o ≤ z := by
  have hl := List.dropLast_append_getLast? z hz
  rw [← hl] at ho hp
  rcases List.mem_append.1 ho with h1 | h2
  · have hlt := (List.pairwise_append.1 hp).2.2 o h1 z (by simp)
    omega
  · simp only [List.mem_singleton] at h2
    omega

/-- Claim C1: whenever `open` (`parse_log_file`) succeeds on an input file
— for any of the three detected encodings, including files ending in a
newline and odd-length / truncated UTF-16 files — the offsets of the
constructed index are strictly increasing and every entry lies in
`[0, len(bytes))`; in particular no entry equals `len(bytes)`.  (On the
inputs where an out-of-range offset would be produced — a truncated
UTF-16LE file with a final `0x0A` low byte — the level scan panics while
slicing, modelled by `parse_log_file` returning `none`, so `open` never
succeeds there and never installs such an index.) -/
theorem open_offsets_strictMono_inBounds (compile : String → Option CRegex)
    (decode : FileEncoding → List Nat → String) (boot_regex level_regex : String)
    (bytes : List Nat) (res : OpenResult)
    (hopen : parse_log_file compile decode boot_regex level_regex bytes = some res) :
    List.Pairwise (· < ·) res.offsets ∧ ∀ o ∈ res.offsets, o < bytes.length := by
  simp only [parse_log_file] at hopen
  rcases hs : lineSlices bytes (computeOffsets bytes) with _ | slices
  · rw [hs] at hopen
    exact absurd hopen (by simp)
  · rw [hs] at hopen
    simp only [Option.some.injEq] at hopen
    subst hopen
    refine ⟨computeOffsets_pairwise bytes, ?_⟩
    intro o ho
    rcases hzl : (computeOffsets bytes).getLast? with _ | z
    · rw [List.getLast?_eq_none_iff] at hzl
      rw [hzl] at ho
      exact absurd ho (List.not_mem_nil o)
    · have hzle := lineSlices_bound bytes _ slices hs z hzl
      have hzne := computeOffsets_last_ne_len bytes z hzl
      have hole := mem_le_getLast _ (computeOffsets_pairwise bytes) o ho z hzl
      omega

/-- The offsets theorem applied to the plain two-line file `"a\nb"`. -/
theorem open_offsets_witness :
    parse_log_file noCompile asciiDecode "" "" bytesAB = some resAB ∧
    List.Pairwise (· < ·) resAB.offsets :=
  ⟨by decide,
    (open_offsets_strictMono_inBounds noCompile asciiDecode "" "" bytesAB resAB
      (by decide)).1⟩

end Logview
